import Mathlib

/-!
Verification of the incremental perceptual-hash deduplication core of
img-dedup-rs (src/src/main.rs).

The aggregator state (`MyApp`), the channel protocol (`Message`) and the
consumer transition (`MyApp.update`, the `try_recv` match inside
`MyApp::update`) are embedded shallowly.  The hash worker `analyze_image`
is embedded with its external effects (file metadata, file contents,
decoding, hashing) passed in as explicit data/functions.  Machine-integer
behaviour that matters (the unchecked `usize` decrement of `found_paths`)
is modelled as arithmetic modulo 2^64.
-/

set_option linter.all false

namespace ImgDedup

/-- Hamming distance between two perceptual hashes, modelled as bit lists
(the source uses img_hash 16x16 = 256-bit hashes whose `dist` is the
Hamming distance). -/
def hashDist (a b : List Bool) : Nat :=
  (a.zip b).countP fun p => p.1 != p.2

/-- Image record owned by the aggregator (struct `Image` in the source):
source path and perceptual hash.  The GPU texture handle is
presentation-only data and is omitted from the model. -/
structure Image where
  path : String
  hash : List Bool
deriving DecidableEq

/-- Error kinds produced by the hash worker.  The source sends
`ImageError::Limits(DimensionError)` for files below the minimum size
(the spec's TooSmall), `ImageError::IoError` for read failures, and the
codec's error for decode failures. -/
inductive ImgError where
  | limits
  | ioError
  | decode
deriving DecidableEq

/-- The payload of an `AddImage` message:
`Result<Image, (String, ImageError)>`. -/
inductive HashResult where
  | ok (image : Image)
  | error (pe : String × ImgError)
deriving DecidableEq

/-- Channel message type (enum `Message` in the source).  Note that the
messages carry no run/generation identifier of any kind. -/
inductive Message where
  | walkDirFinished (pathsCount : Nat)
  | addImage (byteCount : Nat) (result : HashResult)
  | removeImage (idx : Nat)
deriving DecidableEq

/-- Constant `MIN_IMAGE_SIZE: u64 = 10 * 1024` (10 KiB). -/
def MIN_IMAGE_SIZE : Nat := 10 * 1024

/-- Modulus of Rust's 64-bit `usize`. -/
def USIZE_MOD : Nat := 2 ^ 64

/-- The `|x| x - 1` closure applied to `found_paths` on removal: an
unchecked `usize` subtraction, which wraps modulo 2^64 on underflow
(release semantics; debug builds panic, i.e. either way it is not a
saturating no-op). -/
def usizeSub1 (x : Nat) : Nat := (x + (USIZE_MOD - 1)) % USIZE_MOD

/-- Aggregator state (struct `MyApp`).  The channel endpoints and the
clipboard handle are runtime resources, not state the claims speak
about, and are omitted. -/
structure MyApp where
  picked_path : Option String
  images : List (Option Image)
  similar_images : List (Nat × Nat)
  found_paths : Option Nat
  errors : List (String × ImgError)
  analyzed_bytes : Nat
  similarity_threshold : Nat
deriving DecidableEq

/-- Initial state built by `MyApp::new`. -/
def MyApp.new : MyApp :=
  { picked_path := none
    images := []
    similar_images := []
    found_paths := none
    errors := []
    analyzed_bytes := 0
    similarity_threshold := 40 }

/-- The reset performed when a new root directory is picked
(`MyApp::prep_for_analyze`).  Note that `found_paths` is NOT reset. -/
def MyApp.prep_for_analyze (s : MyApp) (path : String) : MyApp :=
  { s with picked_path := some path
           images := []
           similar_images := []
           errors := []
           analyzed_bytes := 0 }

/-- The comparison loop of the `AddImage(Ok(image))` arm:
`self.images.iter().enumerate().for_each(...)` pushes `(image_idx, i)`
for every non-tombstoned entry `Some(other)` at enumeration index `i`
with `other.hash.dist(&image.hash) < self.similarity_threshold`.
`i` is the running enumeration index, `image_idx` the id about to be
assigned to the new image. -/
def scanPairs (image_idx threshold : Nat) (newHash : List Bool) :
    Nat → List (Option Image) → List (Nat × Nat)
  | _, [] => []
  | i, some other :: rest =>
      if hashDist other.hash newHash < threshold then
        (image_idx, i) :: scanPairs image_idx threshold newHash (i + 1) rest
      else
        scanPairs image_idx threshold newHash (i + 1) rest
  | i, none :: rest => scanPairs image_idx threshold newHash (i + 1) rest

/-- The consumer transition: the `match self.images_receiver.try_recv()`
arms of `MyApp::update`, applied to one received message.  (In the
source this drain is reached only while a directory is picked; the state
transition per message is as here.)  `Vec::set`/index-assignment
`self.images[rm_idx] = None` is in-bounds in the source for every
assigned id because ids index into `images`; `List.set` is its
embedding. -/
def MyApp.update (s : MyApp) (m : Message) : MyApp :=
  match m with
  | .walkDirFinished pathsCount => { s with found_paths := some pathsCount }
  | .addImage byteCount (.error (path, err)) =>
      { s with errors := s.errors ++ [(path, err)]
               analyzed_bytes := s.analyzed_bytes + byteCount }
  | .addImage byteCount (.ok image) =>
      { s with similar_images :=
                 s.similar_images ++
                   scanPairs s.images.length s.similarity_threshold image.hash 0 s.images
               images := s.images ++ [some image]
               analyzed_bytes := s.analyzed_bytes + byteCount }
  | .removeImage rm_idx =>
      { s with images := s.images.set rm_idx none
               similar_images :=
                 s.similar_images.filter fun p => p.1 != rm_idx && p.2 != rm_idx
               found_paths := s.found_paths.map usizeSub1 }

/-- Operations driving the aggregator within one run: the four channel
messages plus the user moving the similarity-threshold slider (which
mutates `similarity_threshold` directly in the UI layer). -/
inductive Op where
  | accept (byteCount : Nat) (image : Image)
  | reject (byteCount : Nat) (path : String) (err : ImgError)
  | remove (idx : Nat)
  | finished (n : Nat)
  | setThreshold (t : Nat)
deriving DecidableEq

/-- One step of a run. -/
def step (s : MyApp) (op : Op) : MyApp :=
  match op with
  | .accept b img => s.update (.addImage b (.ok img))
  | .reject b p e => s.update (.addImage b (.error (p, e)))
  | .remove k => s.update (.removeImage k)
  | .finished n => s.update (.walkDirFinished n)
  | .setThreshold t => { s with similarity_threshold := t }

/-- The state reached from `MyApp::new` after processing a trace of
operations. -/
def run (ops : List Op) : MyApp :=
  ops.foldl step MyApp.new

/-- The images accepted along a trace, in acceptance order (ghost
function of the trace). -/
def accepts : List Op → List Image
  | [] => []
  | .accept _ img :: rest => img :: accepts rest
  | _ :: rest => accepts rest

/-- The similarity threshold in effect at each acceptance, in acceptance
order, starting from threshold `t` (ghost function of the trace). -/
def simThresholds (t : Nat) : List Op → List Nat
  | [] => []
  | .accept _ _ :: rest => t :: simThresholds t rest
  | .setThreshold t2 :: rest => simThresholds t2 rest
  | _ :: rest => simThresholds t rest

/-- The similarity threshold in effect after a trace, starting from
threshold `t`. -/
def curThreshold (t : Nat) : List Op → Nat
  | [] => t
  | .setThreshold t2 :: rest => curThreshold t2 rest
  | _ :: rest => curThreshold t rest

/-- Number of `reject` (failed-item) operations in a trace. -/
def countRejects : List Op → Nat
  | [] => 0
  | .reject _ _ _ :: rest => countRejects rest + 1
  | _ :: rest => countRejects rest

/-- Safe positional lookup into a list. -/
def listAt {α : Type} : List α → Nat → Option α
  | [], _ => none
  | x :: _, 0 => some x
  | _ :: xs, n + 1 => listAt xs n

/-- Content of image slot `i`: `none` both for a tombstoned slot and for
an out-of-range index (no slot allocated). -/
def slotOf (l : List (Option Image)) (i : Nat) : Option Image :=
  (listAt l i).getD none

/-- Whether an operation is the scanner's completion message. -/
def isFinishedOp : Op → Bool
  | .finished _ => true
  | _ => false

/-- A run that accepts the records `recs` in order under a fixed
similarity threshold `T` (the slider is set once, before the scan). -/
def acceptAll (T : Nat) (recs : List Image) : MyApp :=
  run (Op.setThreshold T :: recs.map fun r => Op.accept 0 r)

/-- Two distinct positions of `l` hold `r` and `r2` respectively. -/
def twoIdx (l : List Image) (r r2 : Image) : Prop :=
  ∃ i j, i ≠ j ∧ listAt l i = some r ∧ listAt l j = some r2

/-- The unordered pair of records `{r, r2}` is represented in the
similar-pair collection of state `s` (some listed index pair resolves to
these two records, in either orientation). -/
def pairRecords (s : MyApp) (r r2 : Image) : Prop :=
  ∃ i j, (i, j) ∈ s.similar_images ∧
    ((slotOf s.images i = some r ∧ slotOf s.images j = some r2) ∨
     (slotOf s.images i = some r2 ∧ slotOf s.images j = some r))

/-- Continuation of the hash worker after the size gate: `std::fs::read`
(`fileBytes`, `none` on IO error), `image::load_from_memory` plus
`to_rgba8` (`decodeFn`, `none` on decode error, otherwise the pixel
buffer), and `hasher.hash_image` (`hashFn`). -/
def analyze_image_read (fileBytes : Option (List Nat))
    (decodeFn : List Nat → Option (List Nat))
    (hashFn : List Nat → List Bool) (path : String) : Message :=
  match fileBytes with
  | none => Message.addImage 0 (HashResult.error (path, ImgError.ioError))
  | some buffer =>
      match decodeFn buffer with
      | none => Message.addImage buffer.length (HashResult.error (path, ImgError.decode))
      | some image => Message.addImage buffer.length (HashResult.ok ⟨path, hashFn image⟩)

/-- The hash worker `analyze_image`, with its external effects passed in
explicitly: `metadataLen` is `entry.metadata()` projected to `len()`
(`none` when the metadata call fails — the source's `match` falls
through to hashing in that case), and the rest as in
`analyze_image_read`.  The message it sends is returned. -/
def analyze_image (metadataLen : Option Nat) (fileBytes : Option (List Nat))
    (decodeFn : List Nat → Option (List Nat))
    (hashFn : List Nat → List Bool) (path : String) : Message :=
  match metadataLen with
  | some len =>
      if len < MIN_IMAGE_SIZE then
        Message.addImage len (HashResult.error (path, ImgError.limits))
      else
        analyze_image_read fileBytes decodeFn hashFn path
  | none => analyze_image_read fileBytes decodeFn hashFn path

/-! Concrete records and states used by witnesses and counterexamples. -/

def imgA : Image := ⟨"a.png", [true, false]⟩

def imgB : Image := ⟨"b.png", [true, true]⟩

/-- A two-accept trace producing the similar pair `(1, 0)` under the
initial threshold 40. -/
def opsPair : List Op := [Op.accept 0 imgA, Op.accept 0 imgB]

/-- A state holding a single tombstoned slot. -/
def tombApp : MyApp := ⟨none, [none], [], none, [], 0, 40⟩

/-- A mid-run state with one accepted image and a reported total of 5. -/
def rmApp : MyApp := ⟨some "d", [some imgA], [], some 5, [], 0, 40⟩

/-- A finished first-run state: two accepted images from `dir1`, one
similar pair, reported total 2. -/
def oldRunApp : MyApp :=
  ⟨some "dir1", [some ⟨"dir1/a.png", [true]⟩, some ⟨"dir1/b.png", [true]⟩],
   [(1, 0)], some 2, [], 100, 40⟩

/-- A record hashed by an in-flight worker of the first run. -/
def staleImg : Image := ⟨"dir1/c.png", [true]⟩

/-- A state with no scan total reported yet. -/
def noTotalApp : MyApp := ⟨some "d", [some imgA], [], none, [], 0, 40⟩

/-- A state whose reported total has already been decremented to 0. -/
def zeroTotalApp : MyApp := ⟨some "d", [some imgA], [], some 0, [], 0, 40⟩

/-- Accept two images, receive the scan total 2, then remove id 0. -/
def c5Ops : List Op :=
  [Op.accept 0 imgA, Op.accept 0 imgB, Op.finished 2, Op.remove 0]

/-- A complete removal-free run: one success, one failure, scan total 2. -/
def c5WOps : List Op :=
  [Op.accept 0 imgA, Op.reject 0 "bad.png" ImgError.decode, Op.finished 2]

/-- Inductive invariant tying the aggregator state reached by a trace to
the ghost trace functions: slot contents agree with the acceptance
sequence, the live threshold agrees with the trace, and a pair `(a, b)`
is present iff `b < a`, both slots are currently non-tombstoned, and the
Hamming distance of the two records was below the threshold in effect
when slot `a` (the later one) was accepted.  `40` is the initial
threshold set by `MyApp::new`. -/
structure Inv (ops : List Op) (s : MyApp) : Prop where
  len_eq : s.images.length = (accepts ops).length
  thr_eq : s.similarity_threshold = curThreshold 40 ops
  slots : ∀ a r, slotOf s.images a = some r → listAt (accepts ops) a = some r
  pairs : ∀ a b, (a, b) ∈ s.similar_images ↔
      b < a ∧ (slotOf s.images a).isSome ∧ (slotOf s.images b).isSome ∧
      ∃ ra rb t, listAt (accepts ops) a = some ra ∧
        listAt (accepts ops) b = some rb ∧
        listAt (simThresholds 40 ops) a = some t ∧
        hashDist rb.hash ra.hash < t
  nodup : s.similar_images.Nodup

/-! Positional-lookup lemmas. -/

theorem listAt_none_of_le {α : Type} (l : List α) (i : Nat) (h : l.length ≤ i) :
    listAt l i = none := by
  induction l generalizing i with
  | nil => rfl
  | cons x xs ih =>
    cases i with
    | zero => simp at h
    | succ n => exact ih n (by simpa using Nat.le_of_succ_le_succ h)

theorem listAt_lt_isSome {α : Type} (l : List α) (i : Nat) (h : i < l.length) :
    ∃ x, listAt l i = some x := by
  induction l generalizing i with
  | nil => simp at h
  | cons x xs ih =>
    cases i with
    | zero => exact ⟨x, rfl⟩
    | succ n => exact ih n (by simpa using Nat.lt_of_succ_lt_succ h)

theorem listAt_append_lt {α : Type} (l l₂ : List α) (i : Nat) (h : i < l.length) :
    listAt (l ++ l₂) i = listAt l i := by
  induction l generalizing i with
  | nil => simp at h
  | cons x xs ih =>
    cases i with
    | zero => rfl
    | succ n => exact ih n (by simpa using Nat.lt_of_succ_lt_succ h)

theorem listAt_append_self {α : Type} (l : List α) (x : α) :
    listAt (l ++ [x]) l.length = some x := by
  induction l with
  | nil => rfl
  | cons y ys ih => simpa using ih

theorem listAt_set_ne {α : Type} (l : List α) (v : α) (i j : Nat) (h : i ≠ j) :
    listAt (l.set j v) i = listAt l i := by
  induction l generalizing i j with
  | nil => rfl
  | cons x xs ih =>
    cases j with
    | zero =>
      cases i with
      | zero => exact absurd rfl h
      | succ n => rfl
    | succ m =>
      cases i with
      | zero => rfl
      | succ n => exact ih n m (fun hc => h (by simpa using hc))

theorem listAt_set_self {α : Type} (l : List α) (v : α) (j : Nat) (h : j < l.length) :
    listAt (l.set j v) j = some v := by
  induction l generalizing j with
  | nil => simp at h
  | cons x xs ih =>
    cases j with
    | zero => rfl
    | succ m => exact ih m (by simpa using Nat.lt_of_succ_lt_succ h)

theorem listAt_map {α β : Type} (f : α → β) (l : List α) (i : Nat) :
    listAt (l.map f) i = (listAt l i).map f := by
  induction l generalizing i with
  | nil => rfl
  | cons x xs ih =>
    cases i with
    | zero => rfl
    | succ n => exact ih n

/-! Slot lemmas. -/

theorem slotOf_none_of_le (l : List (Option Image)) (i : Nat) (h : l.length ≤ i) :
    slotOf l i = none := by
  simp [slotOf, listAt_none_of_le l i h]

theorem slotOf_lt_of_eq_some (l : List (Option Image)) (i : Nat) (r : Image)
    (h : slotOf l i = some r) : i < l.length := by
  by_contra hc
  rw [slotOf_none_of_le l i (Nat.le_of_not_lt hc)] at h
  exact Option.noConfusion h

theorem slotOf_isSome_lt (l : List (Option Image)) (i : Nat)
    (h : (slotOf l i).isSome) : i < l.length := by
  obtain ⟨r, hr⟩ := Option.isSome_iff_exists.mp h
  exact slotOf_lt_of_eq_some l i r hr

theorem slotOf_append_lt (l l₂ : List (Option Image)) (i : Nat) (h : i < l.length) :
    slotOf (l ++ l₂) i = slotOf l i := by
  simp [slotOf, listAt_append_lt l l₂ i h]

theorem slotOf_append_self (l : List (Option Image)) (x : Option Image) :
    slotOf (l ++ [x]) l.length = x := by
  simp [slotOf, listAt_append_self]

theorem slotOf_set_ne (l : List (Option Image)) (v : Option Image) (i j : Nat)
    (h : i ≠ j) : slotOf (l.set j v) i = slotOf l i := by
  simp [slotOf, listAt_set_ne l v i j h]

theorem slotOf_set_none_self (l : List (Option Image)) (j : Nat) :
    slotOf (l.set j none) j = none := by
  rcases Nat.lt_or_ge j l.length with h | h
  · simp [slotOf, listAt_set_self l none j h]
  · rw [List.set_eq_of_length_le h]
    exact slotOf_none_of_le l j h

theorem slotOf_eq_some_iff (l : List (Option Image)) (i : Nat) (r : Image) :
    slotOf l i = some r ↔ listAt l i = some (some r) := by
  unfold slotOf
  cases h : listAt l i with
  | none => simp
  | some v => cases v <;> simp

/-! Trace-function lemmas. -/

theorem accepts_append (ops ops' : List Op) :
    accepts (ops ++ ops') = accepts ops ++ accepts ops' := by
  induction ops with
  | nil => rfl
  | cons op rest ih => cases op <;> simp [accepts, ih]

theorem curThreshold_append (t : Nat) (ops ops' : List Op) :
    curThreshold t (ops ++ ops') = curThreshold (curThreshold t ops) ops' := by
  induction ops generalizing t with
  | nil => rfl
  | cons op rest ih => cases op <;> simp [curThreshold, ih]

theorem simThresholds_append (t : Nat) (ops ops' : List Op) :
    simThresholds t (ops ++ ops') =
      simThresholds t ops ++ simThresholds (curThreshold t ops) ops' := by
  induction ops generalizing t with
  | nil => rfl
  | cons op rest ih => cases op <;> simp [simThresholds, curThreshold, ih]

theorem simThresholds_length (t : Nat) (ops : List Op) :
    (simThresholds t ops).length = (accepts ops).length := by
  induction ops generalizing t with
  | nil => rfl
  | cons op rest ih => cases op <;> simp [simThresholds, accepts, ih]

theorem run_append (ops : List Op) (op : Op) :
    run (ops ++ [op]) = step (run ops) op := by
  simp [run, List.foldl_append]

/-! Lemmas about the pair-scan loop. -/

theorem mem_scanPairs (idx T : Nat) (h : List Bool) (i0 : Nat)
    (l : List (Option Image)) (x y : Nat) :
    (x, y) ∈ scanPairs idx T h i0 l ↔
      x = idx ∧ ∃ j o, listAt l j = some (some o) ∧ y = i0 + j ∧
        hashDist o.hash h < T := by
  induction l generalizing i0 with
  | nil => simp [scanPairs, listAt]
  | cons entry rest ih =>
    cases entry with
    | none =>
      rw [scanPairs, ih (i0 + 1)]
      constructor
      · rintro ⟨rfl, j, o, hj, rfl, hd⟩
        exact ⟨rfl, j + 1, o, hj, by omega, hd⟩
      · rintro ⟨rfl, j, o, hj, hy, hd⟩
        cases j with
        | zero => simp [listAt] at hj
        | succ j2 => exact ⟨rfl, j2, o, hj, by omega, hd⟩
    | some other =>
      rw [scanPairs]
      by_cases hcond : hashDist other.hash h < T
      · rw [if_pos hcond]
        simp only [List.mem_cons, ih (i0 + 1)]
        constructor
        · rintro (heq | ⟨rfl, j, o, hj, rfl, hd⟩)
          · obtain ⟨rfl, rfl⟩ := Prod.mk.injEq .. ▸ (Prod.mk.injEq x y idx i0 ▸ heq)
            exact ⟨rfl, 0, other, rfl, by omega, hcond⟩
          · exact ⟨rfl, j + 1, o, hj, by omega, hd⟩
        · rintro ⟨rfl, j, o, hj, hy, hd⟩
          cases j with
          | zero =>
            cases hj
            left
            simp [show y = i0 by omega]
          | succ j2 => exact Or.inr ⟨rfl, j2, o, hj, by omega, hd⟩
      · rw [if_neg hcond, ih (i0 + 1)]
        constructor
        · rintro ⟨rfl, j, o, hj, rfl, hd⟩
          exact ⟨rfl, j + 1, o, hj, by omega, hd⟩
        · rintro ⟨rfl, j, o, hj, hy, hd⟩
          cases j with
          | zero =>
            cases hj
            exact absurd hd hcond
          | succ j2 => exact ⟨rfl, j2, o, hj, by omega, hd⟩

theorem mem_scanPairs_zero (idx T : Nat) (h : List Bool)
    (l : List (Option Image)) (x y : Nat) :
    (x, y) ∈ scanPairs idx T h 0 l ↔
      x = idx ∧ ∃ o, slotOf l y = some o ∧ hashDist o.hash h < T := by
  rw [mem_scanPairs]
  constructor
  · rintro ⟨rfl, j, o, hj, rfl, hd⟩
    exact ⟨rfl, o, (slotOf_eq_some_iff l (0 + j) o).mpr (by simpa using hj), hd⟩
  · rintro ⟨rfl, o, ho, hd⟩
    exact ⟨rfl, y, o, (slotOf_eq_some_iff l y o).mp ho, by omega, hd⟩

theorem scanPairs_second_ge (idx T : Nat) (h : List Bool) (i0 : Nat)
    (l : List (Option Image)) (x y : Nat)
    (hm : (x, y) ∈ scanPairs idx T h i0 l) : i0 ≤ y := by
  obtain ⟨-, j, o, -, rfl, -⟩ := (mem_scanPairs idx T h i0 l x y).mp hm
  omega

theorem scanPairs_nodup (idx T : Nat) (h : List Bool) (i0 : Nat)
    (l : List (Option Image)) : (scanPairs idx T h i0 l).Nodup := by
  induction l generalizing i0 with
  | nil => simp [scanPairs]
  | cons entry rest ih =>
    cases entry with
    | none =>
      rw [scanPairs]
      exact ih (i0 + 1)
    | some other =>
      rw [scanPairs]
      by_cases hcond : hashDist other.hash h < T
      · rw [if_pos hcond]
        refine List.nodup_cons.mpr ⟨fun hc => ?_, ih (i0 + 1)⟩
        have := scanPairs_second_ge idx T h (i0 + 1) rest idx i0 hc
        omega
      · rw [if_neg hcond]
        exact ih (i0 + 1)

theorem listAt_lt_of_eq_some {α : Type} (l : List α) (i : Nat) (x : α)
    (h : listAt l i = some x) : i < l.length := by
  by_contra hc
  rw [listAt_none_of_le l i (Nat.le_of_not_lt hc)] at h
  exact Option.noConfusion h

theorem inv_nil : Inv [] MyApp.new := by
  refine ⟨rfl, rfl, ?_, ?_, ?_⟩
  · intro a r hr
    have hr2 : slotOf [] a = some r := hr
    rw [slotOf_none_of_le _ _ (Nat.zero_le a)] at hr2
    exact Option.noConfusion hr2
  · intro a b
    constructor
    · intro hmem
      exact absurd hmem (List.not_mem_nil _)
    · rintro ⟨-, hsa, -, -⟩
      have hsa2 : (slotOf [] a).isSome = true := hsa
      rw [slotOf_none_of_le _ _ (Nat.zero_le a)] at hsa2
      simp at hsa2
  · exact List.nodup_nil

theorem inv_step (ops : List Op) (s : MyApp) (op : Op) (h : Inv ops s) :
    Inv (ops ++ [op]) (step s op) := by
  cases op with
  | finished n =>
    have hacc : accepts (ops ++ [Op.finished n]) = accepts ops := by
      rw [accepts_append, show accepts [Op.finished n] = [] from rfl, List.append_nil]
    have hths : simThresholds 40 (ops ++ [Op.finished n]) = simThresholds 40 ops := by
      rw [simThresholds_append,
          show simThresholds (curThreshold 40 ops) [Op.finished n] = [] from rfl,
          List.append_nil]
    have hcur : curThreshold 40 (ops ++ [Op.finished n]) = curThreshold 40 ops := by
      rw [curThreshold_append]
      rfl
    exact ⟨by rw [hacc]; exact h.len_eq, by rw [hcur]; exact h.thr_eq,
           by rw [hacc]; exact h.slots, by rw [hacc, hths]; exact h.pairs, h.nodup⟩
  | reject b p e =>
    have hacc : accepts (ops ++ [Op.reject b p e]) = accepts ops := by
      rw [accepts_append, show accepts [Op.reject b p e] = [] from rfl, List.append_nil]
    have hths : simThresholds 40 (ops ++ [Op.reject b p e]) = simThresholds 40 ops := by
      rw [simThresholds_append,
          show simThresholds (curThreshold 40 ops) [Op.reject b p e] = [] from rfl,
          List.append_nil]
    have hcur : curThreshold 40 (ops ++ [Op.reject b p e]) = curThreshold 40 ops := by
      rw [curThreshold_append]
      rfl
    exact ⟨by rw [hacc]; exact h.len_eq, by rw [hcur]; exact h.thr_eq,
           by rw [hacc]; exact h.slots, by rw [hacc, hths]; exact h.pairs, h.nodup⟩
  | setThreshold t =>
    have hacc : accepts (ops ++ [Op.setThreshold t]) = accepts ops := by
      rw [accepts_append, show accepts [Op.setThreshold t] = [] from rfl, List.append_nil]
    have hths : simThresholds 40 (ops ++ [Op.setThreshold t]) = simThresholds 40 ops := by
      rw [simThresholds_append,
          show simThresholds (curThreshold 40 ops) [Op.setThreshold t] = [] from rfl,
          List.append_nil]
    have hcur : curThreshold 40 (ops ++ [Op.setThreshold t]) = t := by
      rw [curThreshold_append]
      rfl
    exact ⟨by rw [hacc]; exact h.len_eq, by rw [hcur]; rfl,
           by rw [hacc]; exact h.slots, by rw [hacc, hths]; exact h.pairs, h.nodup⟩
  | remove k =>
    have hacc : accepts (ops ++ [Op.remove k]) = accepts ops := by
      rw [accepts_append, show accepts [Op.remove k] = [] from rfl, List.append_nil]
    have hths : simThresholds 40 (ops ++ [Op.remove k]) = simThresholds 40 ops := by
      rw [simThresholds_append,
          show simThresholds (curThreshold 40 ops) [Op.remove k] = [] from rfl,
          List.append_nil]
    have hcur : curThreshold 40 (ops ++ [Op.remove k]) = curThreshold 40 ops := by
      rw [curThreshold_append]
      rfl
    have himgs : (step s (Op.remove k)).images = s.images.set k none := rfl
    have hprs : (step s (Op.remove k)).similar_images =
        s.similar_images.filter (fun p => p.1 != k && p.2 != k) := rfl
    refine ⟨?_, ?_, ?_, ?_, ?_⟩
    · rw [himgs, hacc]
      simp [h.len_eq]
    · rw [hcur]
      exact h.thr_eq
    · intro a r hr
      rw [himgs] at hr
      rw [hacc]
      have hak : a ≠ k := by
        intro heq
        subst heq
        rw [slotOf_set_none_self] at hr
        exact Option.noConfusion hr
      rw [slotOf_set_ne _ _ _ _ hak] at hr
      exact h.slots a r hr
    · intro a b2
      rw [hprs, himgs, hacc, hths, List.mem_filter]
      constructor
      · rintro ⟨hmem, hcond⟩
        have hak : a ≠ k ∧ b2 ≠ k := by simpa using hcond
        obtain ⟨hb, hsa, hsb, ra, rb, t, hra, hrb, ht, hd⟩ := (h.pairs a b2).mp hmem
        exact ⟨hb, by rw [slotOf_set_ne _ _ _ _ hak.1]; exact hsa,
               by rw [slotOf_set_ne _ _ _ _ hak.2]; exact hsb,
               ra, rb, t, hra, hrb, ht, hd⟩
      · rintro ⟨hb, hsa, hsb, ra, rb, t, hra, hrb, ht, hd⟩
        have hak : a ≠ k := by
          intro heq
          subst heq
          rw [slotOf_set_none_self] at hsa
          simp at hsa
        have hbk : b2 ≠ k := by
          intro heq
          subst heq
          rw [slotOf_set_none_self] at hsb
          simp at hsb
        rw [slotOf_set_ne _ _ _ _ hak] at hsa
        rw [slotOf_set_ne _ _ _ _ hbk] at hsb
        refine ⟨(h.pairs a b2).mpr ⟨hb, hsa, hsb, ra, rb, t, hra, hrb, ht, hd⟩, ?_⟩
        simp [hak, hbk]
    · rw [hprs]
      exact h.nodup.filter _
  | accept b img =>
    have hAlen : (accepts ops).length = s.images.length := h.len_eq.symm
    have hTlen : (simThresholds 40 ops).length = s.images.length := by
      rw [simThresholds_length]
      exact hAlen
    have hacc : accepts (ops ++ [Op.accept b img]) = accepts ops ++ [img] := by
      rw [accepts_append]
      rfl
    have hths : simThresholds 40 (ops ++ [Op.accept b img]) =
        simThresholds 40 ops ++ [s.similarity_threshold] := by
      rw [simThresholds_append, h.thr_eq]
      rfl
    have hcur : curThreshold 40 (ops ++ [Op.accept b img]) = curThreshold 40 ops := by
      rw [curThreshold_append]
      rfl
    have himgs : (step s (Op.accept b img)).images = s.images ++ [some img] := rfl
    have hprs : (step s (Op.accept b img)).similar_images =
        s.similar_images ++
          scanPairs s.images.length s.similarity_threshold img.hash 0 s.images := rfl
    refine ⟨?_, ?_, ?_, ?_, ?_⟩
    · rw [himgs, hacc]
      simp [h.len_eq]
    · rw [hcur]
      exact h.thr_eq
    · intro a r hr
      rw [himgs] at hr
      rw [hacc]
      rcases Nat.lt_trichotomy a s.images.length with hlt | heq | hgt
      · rw [slotOf_append_lt _ _ _ hlt] at hr
        rw [listAt_append_lt _ _ _ (by rw [hAlen]; exact hlt)]
        exact h.slots a r hr
      · subst heq
        rw [slotOf_append_self] at hr
        cases hr
        rw [h.len_eq, listAt_append_self]
      · have hge : (s.images ++ [some img]).length ≤ a := by
          simp
          omega
        rw [slotOf_none_of_le _ _ hge] at hr
        exact Option.noConfusion hr
    · intro a b2
      rw [hprs, himgs, hacc, hths, List.mem_append]
      constructor
      · rintro (hmem | hmem)
        · obtain ⟨hb, hsa, hsb, ra, rb, t, hra, hrb, ht, hd⟩ := (h.pairs a b2).mp hmem
          have ha_lt : a < s.images.length := slotOf_isSome_lt _ _ hsa
          have hb_lt : b2 < s.images.length := slotOf_isSome_lt _ _ hsb
          refine ⟨hb, ?_, ?_, ra, rb, t, ?_, ?_, ?_, hd⟩
          · rw [slotOf_append_lt _ _ _ ha_lt]
            exact hsa
          · rw [slotOf_append_lt _ _ _ hb_lt]
            exact hsb
          · rw [listAt_append_lt _ _ _ (listAt_lt_of_eq_some _ _ _ hra)]
            exact hra
          · rw [listAt_append_lt _ _ _ (listAt_lt_of_eq_some _ _ _ hrb)]
            exact hrb
          · rw [listAt_append_lt _ _ _ (listAt_lt_of_eq_some _ _ _ ht)]
            exact ht
        · obtain ⟨rfl, o, ho, hd⟩ := (mem_scanPairs_zero _ _ _ _ _ _).mp hmem
          have hb_lt : b2 < s.images.length := slotOf_lt_of_eq_some _ _ _ ho
          refine ⟨hb_lt, ?_, ?_, img, o, s.similarity_threshold, ?_, ?_, ?_, hd⟩
          · rw [slotOf_append_self]
            rfl
          · rw [slotOf_append_lt _ _ _ hb_lt, ho]
            rfl
          · rw [h.len_eq, listAt_append_self]
          · rw [listAt_append_lt _ _ _ (by rw [hAlen]; exact hb_lt)]
            exact h.slots b2 o ho
          · rw [← hTlen, listAt_append_self]
      · rintro ⟨hb, hsa, hsb, ra, rb, t, hra, hrb, ht, hd⟩
        have ha_lt : a < s.images.length + 1 := by
          have := slotOf_isSome_lt _ _ hsa
          simpa using this
        rcases Nat.lt_or_ge a s.images.length with hlt | hge
        · left
          have hb_lt : b2 < s.images.length := lt_trans hb hlt
          rw [slotOf_append_lt _ _ _ hlt] at hsa
          rw [slotOf_append_lt _ _ _ hb_lt] at hsb
          rw [listAt_append_lt _ _ _ (by rw [hAlen]; exact hlt)] at hra
          rw [listAt_append_lt _ _ _ (by rw [hAlen]; exact hb_lt)] at hrb
          rw [listAt_append_lt _ _ _ (by rw [hTlen]; exact hlt)] at ht
          exact (h.pairs a b2).mpr ⟨hb, hsa, hsb, ra, rb, t, hra, hrb, ht, hd⟩
        · have heq : a = s.images.length := by omega
          subst heq
          right
          rw [mem_scanPairs_zero]
          have hb_lt : b2 < s.images.length := hb
          rw [slotOf_append_lt _ _ _ hb_lt] at hsb
          obtain ⟨o, ho⟩ := Option.isSome_iff_exists.mp hsb
          rw [h.len_eq, listAt_append_self] at hra
          rw [← hTlen, listAt_append_self] at ht
          rw [listAt_append_lt _ _ _ (by rw [hAlen]; exact hb_lt)] at hrb
          rw [h.slots b2 o ho] at hrb
          have hra2 : ra = img := by
            injection hra with h2
            exact h2.symm
          subst hra2
          have ht2 : t = s.similarity_threshold := by
            injection ht with h2
            exact h2.symm
          subst ht2
          have hrb2 : rb = o := by
            injection hrb with h2
            exact h2.symm
          subst hrb2
          exact ⟨rfl, _, ho, hd⟩
    · rw [hprs]
      refine h.nodup.append (scanPairs_nodup _ _ _ _ _) ?_
      intro p hp hp2
      obtain ⟨a, b2⟩ := p
      have ha_lt : a < s.images.length :=
        slotOf_isSome_lt _ _ ((h.pairs a b2).mp hp).2.1
      obtain ⟨heq, -⟩ := (mem_scanPairs_zero _ _ _ _ _ _).mp hp2
      omega

theorem inv_run (ops : List Op) : Inv ops (run ops) := by
  induction ops using List.reverseRecOn with
  | nil => exact inv_nil
  | append_singleton ops op ih =>
    rw [run_append]
    exact inv_step ops (run ops) op ih

/-! Claim theorems. -/

/-- C1: pair-set invariant.  In every state reachable by a trace of
operations, an ordered pair `(a, b)` is in `similar_images` iff `b < a`,
both slots `a` and `b` currently hold accepted (non-tombstoned) records,
and the Hamming distance of their hashes was below the similarity
threshold in effect at the moment the later member (slot `a`) was
accepted (`simThresholds 40 ops` lists that per-acceptance threshold;
40 is the initial threshold of `MyApp::new`).  Since tombstones are
permanent, this also shows accept never pairs against a tombstoned slot.
Moreover the pair list never holds a duplicate, and with `b < a`
throughout no unordered pair is ever present twice. -/
theorem C1_pair_set_invariant (ops : List Op) (a b : Nat) :
    ((a, b) ∈ (run ops).similar_images ↔
      b < a ∧ ∃ ra rb t, slotOf (run ops).images a = some ra ∧
        slotOf (run ops).images b = some rb ∧
        listAt (simThresholds 40 ops) a = some t ∧
        hashDist rb.hash ra.hash < t)
    ∧ (run ops).similar_images.Nodup := by
  have h := inv_run ops
  refine ⟨?_, h.nodup⟩
  rw [h.pairs a b]
  constructor
  · rintro ⟨hb, hsa, hsb, ra, rb, t, hra, hrb, ht, hd⟩
    obtain ⟨ra2, hra2⟩ := Option.isSome_iff_exists.mp hsa
    obtain ⟨rb2, hrb2⟩ := Option.isSome_iff_exists.mp hsb
    have ha2 := h.slots a ra2 hra2
    have hb2 := h.slots b rb2 hrb2
    rw [hra] at ha2
    rw [hrb] at hb2
    have e1 : ra2 = ra := by
      injection ha2 with e
      exact e.symm
    have e2 : rb2 = rb := by
      injection hb2 with e
      exact e.symm
    have hd2 : hashDist rb2.hash ra2.hash < t := by
      rw [e1, e2]
      exact hd
    exact ⟨hb, ra2, rb2, t, hra2, hrb2, ht, hd2⟩
  · rintro ⟨hb, ra, rb, t, hra, hrb, ht, hd⟩
    exact ⟨hb, by rw [hra]; rfl, by rw [hrb]; rfl,
           ra, rb, t, h.slots a ra hra, h.slots b rb hrb, ht, hd⟩

/-- C9: implicit pair orientation.  Every pair present in any reachable
state satisfies `snd < fst` (the first component is the later-accepted
id), hence the components differ, and both are below the number of
allocated slots; and every pair freshly appended by the comparison loop
has first component exactly the new id `l.length` and second component
an earlier slot. -/
theorem C9_pair_orientation :
    (∀ (ops : List Op) (p : Nat × Nat), p ∈ (run ops).similar_images →
      p.2 < p.1 ∧ p.1 < (run ops).images.length ∧
        p.2 < (run ops).images.length ∧ p.1 ≠ p.2)
    ∧ (∀ (l : List (Option Image)) (T : Nat) (nh : List Bool) (p : Nat × Nat),
        p ∈ scanPairs l.length T nh 0 l → p.1 = l.length ∧ p.2 < l.length) := by
  constructor
  · rintro ops ⟨a, b⟩ hp
    have h := inv_run ops
    obtain ⟨hb, hsa, hsb, -⟩ := (h.pairs a b).mp hp
    have ha_lt := slotOf_isSome_lt _ _ hsa
    have hb_lt := slotOf_isSome_lt _ _ hsb
    exact ⟨hb, ha_lt, hb_lt, by omega⟩
  · rintro l T nh ⟨a, b⟩ hp
    obtain ⟨rfl, o, ho, -⟩ := (mem_scanPairs_zero _ _ _ _ _ _).mp hp
    exact ⟨rfl, slotOf_lt_of_eq_some _ _ _ ho⟩

/-- Witness for C9 at the concrete trace `opsPair`, whose run contains
the pair `(1, 0)`. -/
theorem C9_pair_orientation_witness :
    (1, 0).2 < (1, 0).1 ∧ (1, 0).1 < (run opsPair).images.length ∧
      (1, 0).2 < (run opsPair).images.length ∧ (1, 0).1 ≠ (1, 0).2 :=
  C9_pair_orientation.1 opsPair (1, 0) (by decide)

/-- C7: exact pair filtering on removal.  For an assigned id `k`,
`remove(k)` tombstones slot `k`, leaves every other slot unchanged,
keeps exactly the pairs not mentioning `k` (every surviving pair has
both components different from `k`, and every pair not mentioning `k`
survives), leaves the failure list unchanged, and does not change the
number of allocated slots. -/
theorem C7_remove_filters_exactly (s : MyApp) (k : Nat) (hk : k < s.images.length) :
    slotOf (s.update (Message.removeImage k)).images k = none ∧
    (∀ i, i ≠ k →
      slotOf (s.update (Message.removeImage k)).images i = slotOf s.images i) ∧
    (s.update (Message.removeImage k)).similar_images =
      s.similar_images.filter (fun p => p.1 != k && p.2 != k) ∧
    (∀ p, p ∈ (s.update (Message.removeImage k)).similar_images →
      p.1 ≠ k ∧ p.2 ≠ k) ∧
    (∀ p, p ∈ s.similar_images → p.1 ≠ k → p.2 ≠ k →
      p ∈ (s.update (Message.removeImage k)).similar_images) ∧
    (s.update (Message.removeImage k)).errors = s.errors ∧
    (s.update (Message.removeImage k)).images.length = s.images.length := by
  refine ⟨slotOf_set_none_self _ _, ?_, rfl, ?_, ?_, rfl, by simp [MyApp.update]⟩
  · intro i hi
    exact slotOf_set_ne _ _ _ _ hi
  · rintro ⟨a, b⟩ hp
    have hp2 := List.mem_filter.mp hp
    simpa using hp2.2
  · rintro ⟨a, b⟩ hp ha hb
    refine List.mem_filter.mpr ⟨hp, ?_⟩
    simp [ha, hb]

/-- Witness for C7: removing id 0 from the concrete state `rmApp`
(where id 0 is allocated) tombstones slot 0. -/
theorem C7_remove_filters_exactly_witness :
    slotOf (rmApp.update (Message.removeImage 0)).images 0 = none :=
  (C7_remove_filters_exactly rmApp 0 (by decide)).1

/-- C8: id stability.  Accepting assigns the id `images.len()` (the
current number of allocated slots) and grows the slot count by one; no
message ever shrinks the slot count (so every assigned id stays a valid
index); an existing slot is never overwritten with a different record
(only possibly tombstoned, so ids are never reused); and a tombstoned
slot stays tombstoned. -/
theorem C8_id_stability (s : MyApp) (b : Nat) (img : Image) (m : Message) (i : Nat) :
    (s.update (Message.addImage b (HashResult.ok img))).images.length =
      s.images.length + 1 ∧
    slotOf (s.update (Message.addImage b (HashResult.ok img))).images
      s.images.length = some img ∧
    s.images.length ≤ (s.update m).images.length ∧
    (i < s.images.length →
      slotOf (s.update m).images i = slotOf s.images i ∨
        slotOf (s.update m).images i = none) ∧
    (slotOf s.images i = none → i < s.images.length →
      slotOf (s.update m).images i = none) := by
  refine ⟨by simp [MyApp.update], slotOf_append_self _ _, ?_, ?_, ?_⟩
  · cases m with
    | walkDirFinished n => exact Nat.le_refl _
    | removeImage k => simp [MyApp.update]
    | addImage b2 res =>
      cases res with
      | ok img2 => simp [MyApp.update]
      | error pe => exact Nat.le_refl _
  · intro hi
    cases m with
    | walkDirFinished n => exact Or.inl rfl
    | addImage b2 res =>
      cases res with
      | ok img2 => exact Or.inl (slotOf_append_lt _ _ _ hi)
      | error pe => exact Or.inl rfl
    | removeImage k =>
      by_cases hik : i = k
      · subst hik
        exact Or.inr (slotOf_set_none_self _ _)
      · exact Or.inl (slotOf_set_ne _ _ _ _ hik)
  · intro hnone hi
    cases m with
    | walkDirFinished n => exact hnone
    | addImage b2 res =>
      cases res with
      | ok img2 =>
        have h2 : slotOf (s.images ++ [some img2]) i = none := by
          rw [slotOf_append_lt _ _ _ hi]
          exact hnone
        exact h2
      | error pe => exact hnone
    | removeImage k =>
      by_cases hik : i = k
      · subst hik
        exact slotOf_set_none_self _ _
      · have h2 : slotOf (s.images.set k none) i = none := by
          rw [slotOf_set_ne _ _ _ _ hik]
          exact hnone
        exact h2

/-- Witness for C8 at the concrete state `tombApp` (one tombstoned
slot): removing id 0 keeps the slot tombstoned, and the slot-change
disjunction holds. -/
theorem C8_id_stability_witness :
    (slotOf (tombApp.update (Message.removeImage 0)).images 0 =
        slotOf tombApp.images 0 ∨
      slotOf (tombApp.update (Message.removeImage 0)).images 0 = none) ∧
    slotOf (tombApp.update (Message.removeImage 0)).images 0 = none :=
  ⟨(C8_id_stability tombApp 0 imgA (Message.removeImage 0) 0).2.2.2.1 (by decide),
   (C8_id_stability tombApp 0 imgA (Message.removeImage 0) 0).2.2.2.2
     (by decide) (by decide)⟩

/-- C10: partiality of the total-count decrement.  If no scan total has
been reported (`found_paths = none`), a removal leaves it unreported and
a subsequently reported total `n` lands unreduced (the decrement is
silently lost).  If the reported total is 0, the removal performs the
unchecked `usize` subtraction `0 - 1`, underflowing to `2^64 - 1` — in
particular it is not a saturating no-op at 0. -/
theorem C10_decrement_partiality (s : MyApp) (k n : Nat) :
    (s.found_paths = none →
      (s.update (Message.removeImage k)).found_paths = none ∧
      ((s.update (Message.removeImage k)).update
          (Message.walkDirFinished n)).found_paths = some n) ∧
    (s.found_paths = some 0 →
      (s.update (Message.removeImage k)).found_paths = some (USIZE_MOD - 1) ∧
      (s.update (Message.removeImage k)).found_paths ≠ some 0) := by
  constructor
  · intro h0
    simp [MyApp.update, h0]
  · intro h0
    have h1 : usizeSub1 0 = USIZE_MOD - 1 := by decide
    simp [MyApp.update, h0, h1, USIZE_MOD]

/-- Witness for C10 at concrete states: `noTotalApp` has no reported
total, `zeroTotalApp` has reported total 0. -/
theorem C10_decrement_partiality_witness :
    ((noTotalApp.update (Message.removeImage 0)).found_paths = none ∧
      ((noTotalApp.update (Message.removeImage 0)).update
          (Message.walkDirFinished 5)).found_paths = some 5) ∧
    ((zeroTotalApp.update (Message.removeImage 0)).found_paths =
        some (USIZE_MOD - 1) ∧
      (zeroTotalApp.update (Message.removeImage 0)).found_paths ≠ some 0) :=
  ⟨(C10_decrement_partiality noTotalApp 0 5).1 rfl,
   (C10_decrement_partiality zeroTotalApp 0 5).2 rfl⟩

/-- C3 counterexample: removal is NOT idempotent on the whole state.
At the concrete state `rmApp` (reported total 5), a second `remove(0)`
decrements `found_paths` again, so the double-removal state differs from
the single-removal state. -/
theorem C3_counterexample :
    ¬ ((rmApp.update (Message.removeImage 0)).update (Message.removeImage 0) =
        rmApp.update (Message.removeImage 0)) := by
  decide

/-- C3 as amended: a second `remove(k)` is a no-op on the image slots,
the similar-pair collection, the failure list, the analyzed-bytes
counter, the picked path and the threshold — but it decrements the
reported total once more (so the full state is NOT left identical). -/
theorem C3_amended_remove_idempotent_except_total (s : MyApp) (k : Nat) :
    ((s.update (Message.removeImage k)).update (Message.removeImage k)).images =
      (s.update (Message.removeImage k)).images ∧
    ((s.update (Message.removeImage k)).update
        (Message.removeImage k)).similar_images =
      (s.update (Message.removeImage k)).similar_images ∧
    ((s.update (Message.removeImage k)).update (Message.removeImage k)).errors =
      (s.update (Message.removeImage k)).errors ∧
    ((s.update (Message.removeImage k)).update
        (Message.removeImage k)).analyzed_bytes =
      (s.update (Message.removeImage k)).analyzed_bytes ∧
    ((s.update (Message.removeImage k)).update
        (Message.removeImage k)).picked_path =
      (s.update (Message.removeImage k)).picked_path ∧
    ((s.update (Message.removeImage k)).update
        (Message.removeImage k)).similarity_threshold =
      (s.update (Message.removeImage k)).similarity_threshold ∧
    ((s.update (Message.removeImage k)).update
        (Message.removeImage k)).found_paths =
      ((s.update (Message.removeImage k)).found_paths).map usizeSub1 := by
  refine ⟨?_, ?_, rfl, rfl, rfl, rfl, rfl⟩
  · show ((s.images.set k none).set k none) = s.images.set k none
    rw [List.set_set]
  · show ((s.similar_images.filter fun p => p.1 != k && p.2 != k).filter
        fun p => p.1 != k && p.2 != k) =
      s.similar_images.filter fun p => p.1 != k && p.2 != k
    induction s.similar_images with
    | nil => rfl
    | cons x xs ih =>
      by_cases hx : (x.1 != k && x.2 != k) = true
      · simp [List.filter_cons, hx, ih]
      · simp [List.filter_cons, hx, ih]

/-- C4 counterexample: superseded-run results are NOT discarded.  After
`prep_for_analyze "dir2"` resets the state of `oldRunApp` (a finished
run over `dir1`), the message of an in-flight worker of the old run
(`staleImg`, hashed under `dir1`) is processed like any other: the stale
record is appended to the new run's images, the state changes, and the
old run's reported total even survives the reset. -/
theorem C4_counterexample :
    ((oldRunApp.prep_for_analyze "dir2").update
        (Message.addImage 7 (HashResult.ok staleImg))).images = [some staleImg] ∧
    (oldRunApp.prep_for_analyze "dir2").update
        (Message.addImage 7 (HashResult.ok staleImg)) ≠
      oldRunApp.prep_for_analyze "dir2" ∧
    (oldRunApp.prep_for_analyze "dir2").found_paths = some 2 := by
  decide

/-- C4 as amended: starting a new run resets images, pairs, errors and
the byte counter (but not the reported total), and the consumer performs
NO detection or discarding of in-flight results of a previous run —
messages carry no run identifier, and any `AddImage` delivered after the
reset is incorporated into the new run's state exactly like a
current-run result (a success is accepted as id 0, a failure enters the
failure list). -/
theorem C4_amended_no_run_isolation (s : MyApp) (path : String) (b : Nat)
    (img : Image) (p2 : String) (e : ImgError) :
    (s.prep_for_analyze path).picked_path = some path ∧
    (s.prep_for_analyze path).images = [] ∧
    (s.prep_for_analyze path).similar_images = [] ∧
    (s.prep_for_analyze path).errors = [] ∧
    (s.prep_for_analyze path).analyzed_bytes = 0 ∧
    (s.prep_for_analyze path).found_paths = s.found_paths ∧
    ((s.prep_for_analyze path).update
        (Message.addImage b (HashResult.ok img))).images = [some img] ∧
    ((s.prep_for_analyze path).update
        (Message.addImage b (HashResult.error (p2, e)))).errors = [(p2, e)] := by
  refine ⟨rfl, rfl, rfl, rfl, rfl, rfl, rfl, rfl⟩

/-! Order-independence machinery (claim C2). -/

theorem hashDist_symm (a b : List Bool) : hashDist a b = hashDist b a := by
  induction a generalizing b with
  | nil => cases b <;> rfl
  | cons x xs ih =>
    cases b with
    | nil => rfl
    | cons y ys =>
      show List.countP _ ((x, y) :: xs.zip ys) = List.countP _ ((y, x) :: ys.zip xs)
      rw [List.countP_cons, List.countP_cons]
      have h1 : hashDist xs ys = hashDist ys xs := ih ys
      unfold hashDist at h1
      rw [h1]
      congr 1
      cases x <;> cases y <;> rfl

theorem mem_of_listAt {α : Type} (l : List α) (i : Nat) (x : α)
    (h : listAt l i = some x) : x ∈ l := by
  induction l generalizing i with
  | nil => exact Option.noConfusion h
  | cons y ys ih =>
    cases i with
    | zero =>
      injection h with e
      rw [e]
      exact List.mem_cons_self _ _
    | succ n => exact List.mem_cons_of_mem _ (ih n h)

theorem mem_iff_listAt {α : Type} (l : List α) (x : α) :
    x ∈ l ↔ ∃ i, listAt l i = some x := by
  constructor
  · intro hm
    induction l with
    | nil => exact absurd hm (List.not_mem_nil _)
    | cons y ys ih =>
      rcases List.mem_cons.mp hm with rfl | hm2
      · exact ⟨0, rfl⟩
      · obtain ⟨i, hi⟩ := ih hm2
        exact ⟨i + 1, hi⟩
  · rintro ⟨i, hi⟩
    exact mem_of_listAt l i x hi

theorem twoIdx_cons (x : Image) (xs : List Image) (r r2 : Image) :
    twoIdx (x :: xs) r r2 ↔
      (r = x ∧ r2 ∈ xs) ∨ (r2 = x ∧ r ∈ xs) ∨ twoIdx xs r r2 := by
  constructor
  · rintro ⟨i, j, hij, hi, hj⟩
    cases i with
    | zero =>
      cases j with
      | zero => exact absurd rfl hij
      | succ j2 =>
        injection hi with e
        exact Or.inl ⟨e.symm, mem_of_listAt xs j2 r2 hj⟩
    | succ i2 =>
      cases j with
      | zero =>
        injection hj with e
        exact Or.inr (Or.inl ⟨e.symm, mem_of_listAt xs i2 r hi⟩)
      | succ j2 =>
        exact Or.inr (Or.inr ⟨i2, j2, fun hc => hij (by rw [hc]), hi, hj⟩)
  · rintro (⟨rfl, hm⟩ | ⟨rfl, hm⟩ | ⟨i, j, hij, hi, hj⟩)
    · obtain ⟨j, hj⟩ := (mem_iff_listAt xs r2).mp hm
      exact ⟨0, j + 1, by omega, rfl, hj⟩
    · obtain ⟨i, hi⟩ := (mem_iff_listAt xs r).mp hm
      exact ⟨i + 1, 0, by omega, hi, rfl⟩
    · exact ⟨i + 1, j + 1, by omega, hi, hj⟩

theorem twoIdx_perm (l l2 : List Image) (hp : l.Perm l2) (r r2 : Image) :
    twoIdx l r r2 ↔ twoIdx l2 r r2 := by
  induction hp with
  | nil => exact Iff.rfl
  | cons x p ih => simp only [twoIdx_cons, ih, p.mem_iff]
  | swap x y l =>
    simp only [twoIdx_cons, List.mem_cons]
    tauto
  | trans h1 h2 ih1 ih2 => exact ih1.trans ih2

theorem foldl_accepts_images (recs : List Image) : ∀ s : MyApp,
    (List.foldl step s (recs.map fun r => Op.accept 0 r)).images =
      s.images ++ recs.map some := by
  induction recs with
  | nil =>
    intro s
    simp
  | cons r rs ih =>
    intro s
    rw [List.map_cons, List.foldl_cons, ih]
    have h2 : (step s (Op.accept 0 r)).images = s.images ++ [some r] := rfl
    rw [h2, List.append_assoc]
    rfl

theorem acceptAll_images (T : Nat) (recs : List Image) :
    (acceptAll T recs).images = recs.map some := by
  unfold acceptAll run
  rw [List.foldl_cons, foldl_accepts_images]
  rfl

theorem accepts_map_accept (recs : List Image) :
    accepts (recs.map fun r => Op.accept 0 r) = recs := by
  induction recs with
  | nil => rfl
  | cons r rs ih =>
    show r :: accepts (rs.map fun r => Op.accept 0 r) = r :: rs
    rw [ih]

theorem simThresholds_map_accept (recs : List Image) (t : Nat) :
    simThresholds t (recs.map fun r => Op.accept 0 r) =
      List.replicate recs.length t := by
  induction recs with
  | nil => rfl
  | cons r rs ih =>
    show t :: simThresholds t (rs.map fun r => Op.accept 0 r) = _
    rw [ih, List.length_cons, List.replicate_succ]

theorem listAt_replicate {α : Type} (n : Nat) (t : α) (a : Nat) :
    listAt (List.replicate n t) a = if a < n then some t else none := by
  induction n generalizing a with
  | zero => simp [List.replicate, listAt]
  | succ m ih =>
    rw [List.replicate_succ]
    cases a with
    | zero => simp [listAt]
    | succ a2 =>
      show listAt (List.replicate m t) a2 = _
      rw [ih]
      by_cases h2 : a2 < m
      · rw [if_pos h2, if_pos (by omega)]
      · rw [if_neg h2, if_neg (by omega)]

theorem slotOf_map_some (recs : List Image) (x : Nat) :
    slotOf (recs.map some) x = listAt recs x := by
  unfold slotOf
  rw [listAt_map]
  cases listAt recs x <;> rfl

theorem mem_pairs_acceptAll (T : Nat) (recs : List Image) (a b : Nat) :
    (a, b) ∈ (acceptAll T recs).similar_images ↔
      b < a ∧ ∃ ra rb, listAt recs a = some ra ∧ listAt recs b = some rb ∧
        hashDist rb.hash ra.hash < T := by
  have h := inv_run (Op.setThreshold T :: recs.map fun r => Op.accept 0 r)
  have himg : (run (Op.setThreshold T :: recs.map fun r => Op.accept 0 r)).images =
      recs.map some := acceptAll_images T recs
  have hacc : accepts (Op.setThreshold T :: recs.map fun r => Op.accept 0 r) = recs := by
    show accepts (recs.map fun r => Op.accept 0 r) = recs
    exact accepts_map_accept recs
  have hths : simThresholds 40 (Op.setThreshold T :: recs.map fun r => Op.accept 0 r) =
      List.replicate recs.length T := by
    show simThresholds T (recs.map fun r => Op.accept 0 r) = _
    exact simThresholds_map_accept recs T
  constructor
  · intro hmem
    obtain ⟨hb, hsa, hsb, ra, rb, t, hra, hrb, ht, hd⟩ := (h.pairs a b).mp hmem
    rw [hacc] at hra hrb
    rw [hths, listAt_replicate] at ht
    by_cases hlt : a < recs.length
    · rw [if_pos hlt] at ht
      have e : t = T := by
        injection ht with e2
        exact e2.symm
      subst e
      exact ⟨hb, ra, rb, hra, hrb, hd⟩
    · rw [if_neg hlt] at ht
      exact Option.noConfusion ht
  · rintro ⟨hb, ra, rb, hra, hrb, hd⟩
    have ha_lt : a < recs.length := listAt_lt_of_eq_some _ _ _ hra
    have hb_lt : b < recs.length := listAt_lt_of_eq_some _ _ _ hrb
    have hsa : slotOf (run (Op.setThreshold T :: recs.map fun r => Op.accept 0 r)).images a =
        some ra := by
      rw [himg, slotOf_map_some]
      exact hra
    have hsb : slotOf (run (Op.setThreshold T :: recs.map fun r => Op.accept 0 r)).images b =
        some rb := by
      rw [himg, slotOf_map_some]
      exact hrb
    refine (h.pairs a b).mpr ⟨hb, by rw [hsa]; rfl, by rw [hsb]; rfl,
      ra, rb, T, ?_, ?_, ?_, hd⟩
    · rw [hacc]
      exact hra
    · rw [hacc]
      exact hrb
    · rw [hths, listAt_replicate, if_pos ha_lt]

theorem pairRecords_acceptAll (T : Nat) (recs : List Image) (r r2 : Image) :
    pairRecords (acceptAll T recs) r r2 ↔
      hashDist r.hash r2.hash < T ∧ twoIdx recs r r2 := by
  have hslot : ∀ x, slotOf (acceptAll T recs).images x = listAt recs x := by
    intro x
    rw [acceptAll_images, slotOf_map_some]
  constructor
  · rintro ⟨a, b, hmem, hor⟩
    obtain ⟨hb, ra, rb, hra, hrb, hd⟩ := (mem_pairs_acceptAll T recs a b).mp hmem
    rcases hor with ⟨h1, h2⟩ | ⟨h1, h2⟩
    · rw [hslot a] at h1
      rw [hslot b] at h2
      have e1 : ra = r := by
        rw [hra] at h1
        exact Option.some.inj h1
      have e2 : rb = r2 := by
        rw [hrb] at h2
        exact Option.some.inj h2
      refine ⟨?_, a, b, by omega, h1, h2⟩
      rw [hashDist_symm]
      rw [← e1, ← e2]
      exact hd
    · rw [hslot a] at h1
      rw [hslot b] at h2
      have e1 : ra = r2 := by
        rw [hra] at h1
        exact Option.some.inj h1
      have e2 : rb = r := by
        rw [hrb] at h2
        exact Option.some.inj h2
      refine ⟨?_, b, a, by omega, h2, h1⟩
      rw [← e1, ← e2]
      exact hd
  · rintro ⟨hdist, i, j, hij, hi, hj⟩
    rcases Nat.lt_or_ge i j with hlt | hge
    · have hmem : (j, i) ∈ (acceptAll T recs).similar_images :=
        (mem_pairs_acceptAll T recs j i).mpr ⟨hlt, r2, r, hj, hi, hdist⟩
      exact ⟨j, i, hmem, Or.inr ⟨by rw [hslot j]; exact hj, by rw [hslot i]; exact hi⟩⟩
    · have hgt : j < i := by omega
      have hmem : (i, j) ∈ (acceptAll T recs).similar_images :=
        (mem_pairs_acceptAll T recs i j).mpr
          ⟨hgt, r, r2, hi, hj, by rw [hashDist_symm]; exact hdist⟩
      exact ⟨i, j, hmem, Or.inl ⟨by rw [hslot i]; exact hi, by rw [hslot j]; exact hj⟩⟩

/-- C2: order-independence of the end state.  Accepting the same records
in any permutation, under the same fixed threshold, yields the same
final set of similar pairs viewed as unordered pairs of records. -/
theorem C2_order_independence (T : Nat) (recs recs2 : List Image)
    (hp : recs.Perm recs2) (r r2 : Image) :
    pairRecords (acceptAll T recs) r r2 ↔ pairRecords (acceptAll T recs2) r r2 := by
  rw [pairRecords_acceptAll, pairRecords_acceptAll, twoIdx_perm recs recs2 hp]

/-- Witness for C2 on the concrete two-image permutation `[imgA, imgB]`
versus `[imgB, imgA]` with threshold 5. -/
theorem C2_order_independence_witness :
    List.Perm [imgA, imgB] [imgB, imgA] ∧
    (pairRecords (acceptAll 5 [imgA, imgB]) imgA imgB ↔
      pairRecords (acceptAll 5 [imgB, imgA]) imgA imgB) :=
  ⟨List.Perm.swap imgB imgA [],
   C2_order_independence 5 [imgA, imgB] [imgB, imgA]
     (List.Perm.swap imgB imgA []) imgA imgB⟩

/-! Progress-counter lemmas (claim C5). -/

theorem foldl_images_length (ops : List Op) : ∀ s : MyApp,
    (List.foldl step s ops).images.length =
      s.images.length + (accepts ops).length := by
  induction ops with
  | nil =>
    intro s
    simp [accepts]
  | cons op rest ih =>
    intro s
    rw [List.foldl_cons, ih]
    cases op with
    | accept b img =>
      rw [show accepts (Op.accept b img :: rest) = img :: accepts rest from rfl,
          show (step s (Op.accept b img)).images = s.images ++ [some img] from rfl]
      simp only [List.length_append, List.length_cons, List.length_nil]
      omega
    | reject b p e =>
      rfl
    | remove k =>
      rw [show (step s (Op.remove k)).images = s.images.set k none from rfl,
          List.length_set]
      rfl
    | finished n => rfl
    | setThreshold t => rfl

theorem foldl_errors_length (ops : List Op) : ∀ s : MyApp,
    (List.foldl step s ops).errors.length = s.errors.length + countRejects ops := by
  induction ops with
  | nil =>
    intro s
    simp [countRejects]
  | cons op rest ih =>
    intro s
    rw [List.foldl_cons, ih]
    cases op with
    | accept b img => rfl
    | reject b p e =>
      rw [show countRejects (Op.reject b p e :: rest) = countRejects rest + 1 from rfl,
          show (step s (Op.reject b p e)).errors = s.errors ++ [(p, e)] from rfl]
      simp only [List.length_append, List.length_cons, List.length_nil]
      omega
    | remove k => rfl
    | finished n => rfl
    | setThreshold t => rfl

theorem foldl_found_paths (N : Nat) (ops : List Op) : ∀ s : MyApp,
    (∀ n, Op.finished n ∈ ops → n = N) → (∀ k, Op.remove k ∉ ops) →
    (List.foldl step s ops).found_paths =
      if ops.any isFinishedOp then some N else s.found_paths := by
  induction ops with
  | nil =>
    intro s h1 h2
    simp
  | cons op rest ih =>
    intro s h1 h2
    rw [List.foldl_cons,
        ih _ (fun n hm => h1 n (List.mem_cons_of_mem _ hm))
          (fun k hm => h2 k (List.mem_cons_of_mem _ hm))]
    cases op with
    | finished n =>
      have hn : n = N := h1 n (List.mem_cons_self _ _)
      rw [hn]
      have hstep : (step s (Op.finished N)).found_paths = some N := rfl
      rw [hstep, show ((Op.finished N :: rest).any isFinishedOp) = true from rfl]
      by_cases hany : rest.any isFinishedOp
      · rw [if_pos hany, if_pos rfl]
      · rw [if_neg hany, if_pos rfl]
    | remove k => exact absurd (List.mem_cons_self _ _) (h2 k)
    | accept b img =>
      rw [show (step s (Op.accept b img)).found_paths = s.found_paths from rfl,
          show ((Op.accept b img :: rest).any isFinishedOp) =
            rest.any isFinishedOp from rfl]
    | reject b p e =>
      rw [show (step s (Op.reject b p e)).found_paths = s.found_paths from rfl,
          show ((Op.reject b p e :: rest).any isFinishedOp) =
            rest.any isFinishedOp from rfl]
    | setThreshold t =>
      rw [show (step s (Op.setThreshold t)).found_paths = s.found_paths from rfl,
          show ((Op.setThreshold t :: rest).any isFinishedOp) =
            rest.any isFinishedOp from rfl]

/-- C5 counterexample: the processed count CAN exceed the most recently
reported scan total.  In the reachable state after `c5Ops` (two accepts,
scan total 2, then one removal) the displayed total `found_paths` is 1
while `images.len() + errors.len()` is 2, because removal decrements the
total but the tombstoned slot still counts as processed. -/
theorem C5_counterexample :
    (run c5Ops).found_paths = some 1 ∧
    ¬ ((run c5Ops).images.length + (run c5Ops).errors.length ≤ 1) := by
  decide

/-- C5 as amended: in a removal-free run whose messages all belong to
the current scan — every reported total equals `N` and at most `N`
result messages arrive (each submitted worker reports exactly once) —
the processed count `images.len() + errors.len()` never exceeds the
reported total, and once all `N` results have arrived and the total has
been reported, the processed count equals it.  (After a removal the
bound fails, as the counterexample shows: the tombstoned slot still
counts as processed while the total is decremented.) -/
theorem C5_amended_processed_bound (ops : List Op) (N : Nat)
    (h1 : ∀ n, Op.finished n ∈ ops → n = N)
    (h2 : ∀ k, Op.remove k ∉ ops)
    (h3 : (accepts ops).length + countRejects ops ≤ N) :
    (∀ t, (run ops).found_paths = some t →
      (run ops).images.length + (run ops).errors.length ≤ t) ∧
    ((accepts ops).length + countRejects ops = N → Op.finished N ∈ ops →
      (run ops).images.length + (run ops).errors.length = N ∧
      (run ops).found_paths = some N) := by
  have hlen : (run ops).images.length = (accepts ops).length := by
    have h4 := foldl_images_length ops MyApp.new
    simpa [run, MyApp.new] using h4
  have herr : (run ops).errors.length = countRejects ops := by
    have h4 := foldl_errors_length ops MyApp.new
    simpa [run, MyApp.new] using h4
  have hfp : (run ops).found_paths =
      if ops.any isFinishedOp then some N else none := by
    have h4 := foldl_found_paths N ops MyApp.new h1 h2
    simpa [run, MyApp.new] using h4
  constructor
  · intro t ht
    rw [hfp] at ht
    by_cases hany : ops.any isFinishedOp
    · rw [if_pos hany] at ht
      have he : t = N := (Option.some.inj ht).symm
      subst he
      rw [hlen, herr]
      exact h3
    · rw [if_neg hany] at ht
      exact Option.noConfusion ht
  · intro hc hfin
    have hany : ops.any isFinishedOp = true := by
      rw [List.any_eq_true]
      exact ⟨Op.finished N, hfin, rfl⟩
    rw [hlen, herr, hfp, if_pos hany]
    exact ⟨hc, rfl⟩

/-- Witness for the amended C5 at the complete concrete run `c5WOps`
(one success, one failure, total 2). -/
theorem C5_amended_processed_bound_witness :
    (run c5WOps).images.length + (run c5WOps).errors.length = 2 ∧
    (run c5WOps).found_paths = some 2 :=
  (C5_amended_processed_bound c5WOps 2
      (by intro n hn; simp [c5WOps] at hn; exact hn)
      (by intro k hk; simp [c5WOps] at hk)
      (by decide)).2
    (by decide) (by decide)

/-- C6: minimum-size rejection.  When the file's metadata reports a byte
size below the 10 KiB floor, the hash worker sends a failure message
carrying that byte size and the size-limit error (the spec's TooSmall),
regardless of the file's contents, the decoder, or the hash function —
the file is never read, decoded or hashed. -/
theorem C6_min_size_rejection (metadataLen : Option Nat) (n : Nat)
    (fileBytes : Option (List Nat)) (decodeFn : List Nat → Option (List Nat))
    (hashFn : List Nat → List Bool) (path : String)
    (hm : metadataLen = some n) (hn : n < MIN_IMAGE_SIZE) :
    analyze_image metadataLen fileBytes decodeFn hashFn path =
      Message.addImage n (HashResult.error (path, ImgError.limits)) := by
  subst hm
  simp [analyze_image, hn]

/-- Witness for C6: a 9 KiB (9216-byte) file is rejected as too small
with its size recorded, under a decoder and hasher that are never
consulted. -/
theorem C6_min_size_rejection_witness :
    analyze_image (some 9216) none (fun _ => none) (fun _ => []) "small.png" =
      Message.addImage 9216 (HashResult.error ("small.png", ImgError.limits)) :=
  C6_min_size_rejection (some 9216) 9216 none (fun _ => none) (fun _ => [])
    "small.png" rfl (by decide)

end ImgDedup
